import Mathlib

/-!
Shallow embedding of the flight-search core of the repository
(`src/flight_search/entities.py`, `constraints.py`, `search.py`).

Timestamps (`departure`, `arrival`) and durations (`min_layover`,
`max_layover`) are modelled as integers (minutes); calendar dates are the
integer day index obtained by floor-dividing a timestamp by 1440, matching
`datetime.date()` extraction for the purposes of date-equality tests.
Decimal prices are modelled as rationals.
-/

/-- Mirror of `entities.FlightDetails` (a frozen dataclass). -/
structure FlightDetails where
  flight_no : String
  origin : String
  destination : String
  departure : Int
  arrival : Int
  base_price : ℚ
  bag_price : ℚ
  bags_allowed : Nat
  deriving DecidableEq

/-- Mirror of `FlightDetails.total_price`: `base_price + bags * bag_price`. -/
def FlightDetails.total_price (f : FlightDetails) (bags : Nat) : ℚ :=
  f.base_price + (bags : ℚ) * f.bag_price

/-- Mirror of `entities.FlightCombination`: a sequence of flights that the
constructor rejects when empty, so the embedded value carries the
non-emptiness fact established at construction time. -/
structure FlightCombination where
  flights : List FlightDetails
  nonempty : flights ≠ []

instance : DecidableEq FlightCombination := fun a b =>
  decidable_of_iff (a.flights = b.flights) (by cases a; cases b; simp)

/-- Mirror of the checked `FlightCombination.__init__`: constructing from an
empty flight list signals the construction error, any other list succeeds. -/
def FlightCombination.ofFlights : List FlightDetails → Except String FlightCombination
  | [] => Except.error "Flight combination must contain at least 1 flight"
  | f :: fs => Except.ok ⟨f :: fs, by simp⟩

/-- Mirror of `FlightCombination(flight)` applied to a single flight, as done
when seeding the search stack. -/
def FlightCombination.single (f : FlightDetails) : FlightCombination :=
  ⟨[f], by simp⟩

/-- Mirror of the `last` property: the final flight of the combination. -/
def FlightCombination.last (c : FlightCombination) : FlightDetails :=
  c.flights.getLast c.nonempty

/-- Mirror of the `first` property: the initial flight of the combination. -/
def FlightCombination.first (c : FlightCombination) : FlightDetails :=
  c.flights.head c.nonempty

/-- Mirror of the `destination` property: the last flight's destination. -/
def FlightCombination.destination (c : FlightCombination) : String :=
  c.last.destination

/-- Mirror of the `connections` property: number of flights minus one. -/
def FlightCombination.connections (c : FlightCombination) : Nat :=
  c.flights.length - 1

/-- Mirror of the derived `visited_airports` set: every origin and
destination appearing in the combination (list membership models the
Python set membership test). -/
def FlightCombination.visited_airports (c : FlightCombination) : List String :=
  c.flights.flatMap (fun f => [f.origin, f.destination])

/-- Mirror of `FlightCombination.__add__`: a new combination with the flight
appended. -/
def FlightCombination.add (c : FlightCombination) (f : FlightDetails) : FlightCombination :=
  ⟨c.flights ++ [f], by simp⟩

/-- Mirror of the `travel_time` property. -/
def FlightCombination.travel_time (c : FlightCombination) : Int :=
  c.last.arrival - c.first.departure

/-- Mirror of `entities.Trip`. The Python `NullFlightCombination` return leg
of a one-way trip is modelled by `none`, which contributes no flights when a
trip is iterated, matching its empty iterator. -/
structure Trip where
  departing : FlightCombination
  returning : Option FlightCombination
  required_bags : Nat
  deriving DecidableEq

/-- Flights produced by iterating a trip (`Trip.__iter__`): the departing
combination's flights followed by the returning combination's flights, the
absent return leg contributing nothing. -/
def Trip.allFlights (t : Trip) : List FlightDetails :=
  t.departing.flights ++ (match t.returning with
    | some r => r.flights
    | none => [])

/-- Mirror of `entities.total_price` over an iterable of flights. -/
def total_price (flights : List FlightDetails) (bags : Nat) : ℚ :=
  (flights.map (fun f => f.total_price bags)).sum

/-- Mirror of `entities.num_bags_allowed` restricted to non-empty lists is
not needed by the claims; omitted. Mirror of `constraints.SearchConstraints`. -/
structure SearchConstraints where
  origin : String
  destination : String
  required_bags : Nat := 0
  min_layover : Int := 60
  max_layover : Int := 360
  max_price : Option ℚ := none
  max_connections : Option Nat := none
  departure_date : Option Int := none
  deriving DecidableEq

/-- Mirror of `constraints.TripConstraints`. -/
structure TripConstraints where
  departing : SearchConstraints
  returning : Option SearchConstraints
  deriving DecidableEq

/-- Mirror of the `TripConstraints.required_bags` property: read from the
departing side. -/
def TripConstraints.required_bags (tc : TripConstraints) : Nat :=
  tc.departing.required_bags

/-- Mirror of the `TripConstraints.roundtrip` property. -/
def TripConstraints.roundtrip (tc : TripConstraints) : Bool :=
  tc.returning.isSome

/-- Mirror of the `TripConstraints.max_price` property: read from the
departing side. -/
def TripConstraints.max_price (tc : TripConstraints) : Option ℚ :=
  tc.departing.max_price

/-- Mirror of `constraints.is_flight_within_price_range`. -/
def is_flight_within_price_range (f : FlightDetails) (constraints : SearchConstraints) : Bool :=
  match constraints.max_price with
  | none => true
  | some mp => decide (f.total_price constraints.required_bags ≤ mp)

/-- Mirror of `constraints.has_a_valid_number_of_connections`. -/
def has_a_valid_number_of_connections (combination : FlightCombination)
    (constraints : SearchConstraints) : Bool :=
  match constraints.max_connections with
  | none => true
  | some mc => decide (combination.connections ≤ mc)

/-- Mirror of `constraints.is_within_price_range`. The Python function
duck-types its `constraints` argument through the `max_price` and
`required_bags` attributes, which both `SearchConstraints` and
`TripConstraints` provide, and its `item` argument through flight iteration;
the embedding therefore takes the flight list and those two attributes. -/
def is_within_price_range (flights : List FlightDetails) (max_price : Option ℚ)
    (required_bags : Nat) : Bool :=
  match max_price with
  | none => true
  | some mp => decide (total_price flights required_bags ≤ mp)

/-- Mirror of `constraints.is_valid_layover`: both bounds inclusive. -/
def is_valid_layover (inbound outbound : FlightDetails)
    (constraints : SearchConstraints) : Bool :=
  decide (constraints.min_layover ≤ outbound.departure - inbound.arrival) &&
    decide (outbound.departure - inbound.arrival ≤ constraints.max_layover)

/-- Mirror of `constraints.is_flight_elegible`. -/
def is_flight_elegible (f : FlightDetails) (constraints : TripConstraints) : Bool :=
  decide (constraints.required_bags ≤ f.bags_allowed) &&
    is_flight_within_price_range f constraints.departing

/-- Day index of a timestamp in minutes, modelling `datetime.date()`. -/
def dateOf (t : Int) : Int := Int.fdiv t 1440

/-- Mirror of `constraints.departs_on_requested_date`; `not
constraints.departure_date` in Python is the `None` test since date objects
are always truthy. -/
def departs_on_requested_date (f : FlightDetails) (constraints : SearchConstraints) : Bool :=
  match constraints.departure_date with
  | none => true
  | some d => decide (dateOf f.departure = d)

/-- Mirror of `constraints.is_combination_elegible`. -/
def is_combination_elegible (combination : FlightCombination)
    (constraints : SearchConstraints) : Bool :=
  has_a_valid_number_of_connections combination constraints &&
    is_within_price_range combination.flights constraints.max_price constraints.required_bags

/-- Mirror of `constraints.is_trip_elegible` (called with a
`TripConstraints` value in `_find_trips`, whose `max_price` and
`required_bags` properties delegate to the departing side). -/
def is_trip_elegible (trip : Trip) (constraints : TripConstraints) : Bool :=
  is_within_price_range trip.allFlights constraints.max_price constraints.required_bags

/-- Mirror of `search.FlightIndex = dict[str, list[FlightDetails]]`,
modelled as an association list in insertion order. -/
abbrev FlightIndex := List (String × List FlightDetails)

/-- Mirror of `index.get(key, [])`: the bucket of the first matching key, or
the empty list when the key is absent. -/
def indexGet : FlightIndex → String → List FlightDetails
  | [], _ => []
  | (k, fs) :: rest, key => if k = key then fs else indexGet rest key

/-- Mirror of `index.setdefault(key, []).append(f)`. -/
def setdefault_append (index : FlightIndex) (key : String) (f : FlightDetails) : FlightIndex :=
  match index with
  | [] => [(key, [f])]
  | (k, fs) :: rest =>
    if k = key then (k, fs ++ [f]) :: rest else (k, fs) :: setdefault_append rest key f

/-- Mirror of `search.build_flight_index`. -/
def build_flight_index (flights : List FlightDetails) : FlightIndex :=
  flights.foldl (fun idx f => setdefault_append idx f.origin f) []

/-- Mirror of `search.branch_combination`: extend the combination by every
flight departing its destination whose own destination is unvisited and
whose layover against the last leg is valid. -/
def branch_combination (cmb : FlightCombination) (index : FlightIndex)
    (constraints : SearchConstraints) : List FlightCombination :=
  ((indexGet index cmb.destination).filter
      (fun f => decide (f.destination ∉ cmb.visited_airports) &&
        is_valid_layover cmb.last f constraints)).map
    (fun f => cmb.add f)

/-- Branches retained by the loop body of `find_combinations`: only
extensions passing `is_combination_elegible` are pushed. -/
def elegible_branches (cmb : FlightCombination) (index : FlightIndex)
    (constraints : SearchConstraints) : List FlightCombination :=
  (branch_combination cmb index constraints).filter
    (fun c => is_combination_elegible c constraints)

/-- Loop of `search.find_combinations`. The stack is represented with its
top at the head, so Python's `stack.pop()` is the head and
`stack.extend(branches)` pushes the reversed branch list. The `fuel`
argument counts remaining loop iterations; `none` reports fuel exhaustion
and is shown below never to occur for the fuel chosen by
`find_combinations`. -/
def searchLoop (index : FlightIndex) (constraints : SearchConstraints) :
    Nat → List FlightCombination → Option (List FlightCombination)
  | _, [] => some []
  | 0, _ :: _ => none
  | fuel + 1, cur :: rest =>
    if cur.destination = constraints.destination then
      (searchLoop index constraints fuel rest).map (fun out => cur :: out)
    else
      searchLoop index constraints fuel
        ((elegible_branches cur index constraints).reverse ++ rest)

/-- Initial stack of `find_combinations`: one single-flight combination per
flight departing the search origin that passes the date test; reversed
because Python pops the seed list from its end. -/
def initialStack (index : FlightIndex) (constraints : SearchConstraints) :
    List FlightCombination :=
  (((indexGet index constraints.origin).filter
      (fun f => departs_on_requested_date f constraints)).map
    FlightCombination.single).reverse

/-- All flights stored in an index (concatenation of the buckets). -/
def indexFlights (index : FlightIndex) : List FlightDetails :=
  (index.map Prod.snd).flatten

/-- All airports mentioned by flights stored in an index. -/
def indexAirports (index : FlightIndex) : Finset String :=
  ((indexFlights index).flatMap (fun f => [f.origin, f.destination])).toFinset

/-- Weight of one stack entry for the termination measure: branching
replaces an entry by at most `(indexFlights index).length` entries of one
smaller exponent. -/
def comboWeight (index : FlightIndex) (c : FlightCombination) : Nat :=
  ((indexFlights index).length + 1) ^ ((indexAirports index).card + 1 - c.flights.length)

/-- Termination measure of a stack: the sum of its entries' weights. -/
def stackMeasure (index : FlightIndex) (stack : List FlightCombination) : Nat :=
  (stack.map (comboWeight index)).sum

/-- Mirror of `search.find_combinations`, run with enough fuel to complete
(shown below); the resulting list is in yield order. -/
def find_combinations (index : FlightIndex) (constraints : SearchConstraints) :
    List FlightCombination :=
  (searchLoop index constraints (stackMeasure index (initialStack index constraints))
    (initialStack index constraints)).getD []

/-- Mirror of `search._find_trips`: the Cartesian product of outbound and
return combinations filtered by the strict turnaround test for round trips,
or outbound combinations paired with the absent return leg for one-way
trips; in both cases filtered through `is_trip_elegible`. -/
def find_trips (index : FlightIndex) (constraints : TripConstraints) : List Trip :=
  match constraints.returning with
  | some ret_cs =>
    ((((find_combinations index constraints.departing).flatMap
          (fun dep => (find_combinations index ret_cs).map (fun ret => (dep, ret)))).filter
        (fun p => decide (p.1.last.arrival < p.2.first.departure))).map
      (fun p => Trip.mk p.1 (some p.2) constraints.required_bags)).filter
      (fun t => is_trip_elegible t constraints)
  | none =>
    ((find_combinations index constraints.departing).map
      (fun dep => Trip.mk dep none constraints.required_bags)).filter
      (fun t => is_trip_elegible t constraints)

/-- Mirror of `search.search_trips`: filter the flights by per-flight
eligibility, build the index, and search for trips. -/
def search_trips (flights : List FlightDetails) (constraints : TripConstraints) : List Trip :=
  find_trips (build_flight_index
    (flights.filter (fun f => is_flight_elegible f constraints))) constraints

/-! Basic lemmas about combinations. -/

theorem FlightCombination.add_flights (c : FlightCombination) (f : FlightDetails) :
    (c.add f).flights = c.flights ++ [f] := rfl

theorem FlightCombination.single_flights (f : FlightDetails) :
    (FlightCombination.single f).flights = [f] := rfl

theorem FlightCombination.add_last (c : FlightCombination) (f : FlightDetails) :
    (c.add f).last = f := by
  have h1 : (c.flights ++ [f]).getLast? = some f := List.getLast?_concat _
  have h2 := List.getLast?_eq_getLast (c.flights ++ [f]) (c.add f).nonempty
  rw [h1] at h2
  exact (Option.some.inj h2).symm

theorem FlightCombination.add_destination (c : FlightCombination) (f : FlightDetails) :
    (c.add f).destination = f.destination := by
  rw [FlightCombination.destination, FlightCombination.add_last]

theorem FlightCombination.add_visited (c : FlightCombination) (f : FlightDetails) :
    (c.add f).visited_airports = c.visited_airports ++ [f.origin, f.destination] := by
  simp [FlightCombination.visited_airports, FlightCombination.add_flights]

theorem FlightCombination.single_visited (f : FlightDetails) :
    (FlightCombination.single f).visited_airports = [f.origin, f.destination] := rfl

theorem FlightCombination.single_destination (f : FlightDetails) :
    (FlightCombination.single f).destination = f.destination := rfl

/-! Basic lemmas about the index. -/

theorem indexGet_subset_indexFlights {index : FlightIndex} {key : String} {f : FlightDetails}
    (h : f ∈ indexGet index key) : f ∈ indexFlights index := by
  induction index with
  | nil => simp [indexGet] at h
  | cons kv rest ih =>
    obtain ⟨k, fs⟩ := kv
    rw [indexGet] at h
    by_cases hk : k = key
    · rw [if_pos hk] at h
      simp [indexFlights]
      exact Or.inl h
    · rw [if_neg hk] at h
      simp [indexFlights] at ih ⊢
      exact Or.inr (ih h)

theorem indexGet_length_le (index : FlightIndex) (key : String) :
    (indexGet index key).length ≤ (indexFlights index).length := by
  induction index with
  | nil => simp [indexGet]
  | cons kv rest ih =>
    obtain ⟨k, fs⟩ := kv
    rw [indexGet]
    by_cases hk : k = key
    · rw [if_pos hk]
      simp [indexFlights]
    · rw [if_neg hk]
      simp only [indexFlights, List.map_cons, List.flatten_cons, List.length_append]
      exact le_trans ih (Nat.le_add_left _ _)

theorem indexGet_mem_exists {index : FlightIndex} {key : String} {f : FlightDetails}
    (h : f ∈ indexGet index key) : ∃ kv ∈ index, kv.1 = key ∧ f ∈ kv.2 := by
  induction index with
  | nil => simp [indexGet] at h
  | cons kv rest ih =>
    obtain ⟨k, fs⟩ := kv
    rw [indexGet] at h
    by_cases hk : k = key
    · rw [if_pos hk] at h
      exact ⟨(k, fs), List.mem_cons_self _ _, hk, h⟩
    · rw [if_neg hk] at h
      obtain ⟨kv, hkv, hkey, hf⟩ := ih h
      exact ⟨kv, List.mem_cons_of_mem _ hkv, hkey, hf⟩

/-! Membership characterizations for the search building blocks. -/

theorem mem_initialStack {index : FlightIndex} {cs : SearchConstraints} {c : FlightCombination} :
    c ∈ initialStack index cs ↔
      ∃ f, f ∈ indexGet index cs.origin ∧ departs_on_requested_date f cs = true ∧
        c = FlightCombination.single f := by
  simp only [initialStack, List.mem_reverse, List.mem_map, List.mem_filter]
  constructor
  · rintro ⟨f, ⟨hf, hd⟩, rfl⟩
    exact ⟨f, hf, hd, rfl⟩
  · rintro ⟨f, hf, hd, rfl⟩
    exact ⟨f, ⟨hf, hd⟩, rfl⟩

theorem mem_elegible_branches {cmb c : FlightCombination} {index : FlightIndex}
    {cs : SearchConstraints} (h : c ∈ elegible_branches cmb index cs) :
    ∃ f, f ∈ indexGet index cmb.destination ∧ f.destination ∉ cmb.visited_airports ∧
      is_valid_layover cmb.last f cs = true ∧ is_combination_elegible c cs = true ∧
      c = cmb.add f := by
  rw [elegible_branches, List.mem_filter] at h
  obtain ⟨hmem, helig⟩ := h
  rw [branch_combination, List.mem_map] at hmem
  obtain ⟨f, hf, rfl⟩ := hmem
  rw [List.mem_filter] at hf
  obtain ⟨hget, hcond⟩ := hf
  rw [Bool.and_eq_true, decide_eq_true_eq] at hcond
  exact ⟨f, hget, hcond.1, hcond.2, helig, rfl⟩

/-! Generic invariant preservation through the search loop. -/

theorem searchLoop_invariant (index : FlightIndex) (cs : SearchConstraints)
    (P : FlightCombination → Prop)
    (hstep : ∀ c, P c → ∀ c' ∈ elegible_branches c index cs, P c') :
    ∀ (fuel : Nat) (stack : List FlightCombination), (∀ c ∈ stack, P c) →
      ∀ out, searchLoop index cs fuel stack = some out → ∀ c ∈ out, P c := by
  intro fuel
  induction fuel with
  | zero =>
    intro stack hstack out hout
    cases stack with
    | nil =>
      rw [searchLoop] at hout
      obtain rfl := Option.some.inj hout
      intro c hc
      simp at hc
    | cons cur rest => rw [searchLoop] at hout; exact absurd hout (by simp)
  | succ n ih =>
    intro stack hstack out hout
    cases stack with
    | nil =>
      rw [searchLoop] at hout
      obtain rfl := Option.some.inj hout
      intro c hc
      simp at hc
    | cons cur rest =>
      rw [searchLoop] at hout
      by_cases hdest : cur.destination = cs.destination
      · rw [if_pos hdest] at hout
        obtain ⟨out', hout', rfl⟩ := Option.map_eq_some'.mp hout
        intro c hc
        rcases List.mem_cons.mp hc with rfl | hc
        · exact hstack c (List.mem_cons_self _ _)
        · exact ih rest (fun d hd => hstack d (List.mem_cons_of_mem _ hd)) out' hout' c hc
      · rw [if_neg hdest] at hout
        refine ih _ ?_ out hout
        intro c hc
        rcases List.mem_append.mp hc with hc | hc
        · exact hstep cur (hstack cur (List.mem_cons_self _ _)) c (List.mem_reverse.mp hc)
        · exact hstack c (List.mem_cons_of_mem _ hc)

theorem find_combinations_invariant (index : FlightIndex) (cs : SearchConstraints)
    (P : FlightCombination → Prop)
    (hinit : ∀ c ∈ initialStack index cs, P c)
    (hstep : ∀ c, P c → ∀ c' ∈ elegible_branches c index cs, P c') :
    ∀ c ∈ find_combinations index cs, P c := by
  intro c hc
  rw [find_combinations] at hc
  cases hrun : searchLoop index cs (stackMeasure index (initialStack index cs))
      (initialStack index cs) with
  | none => rw [hrun] at hc; simp at hc
  | some out =>
    rw [hrun] at hc
    exact searchLoop_invariant index cs P hstep _ _ hinit out hrun c hc

/-- Every combination the loop yields was popped after matching the target
destination. -/
theorem searchLoop_yield_destination (index : FlightIndex) (cs : SearchConstraints) :
    ∀ (fuel : Nat) (stack : List FlightCombination) (out : List FlightCombination),
      searchLoop index cs fuel stack = some out → ∀ c ∈ out,
        c.destination = cs.destination := by
  intro fuel
  induction fuel with
  | zero =>
    intro stack out hout
    cases stack with
    | nil =>
      rw [searchLoop] at hout
      obtain rfl := Option.some.inj hout
      intro c hc
      simp at hc
    | cons cur rest => rw [searchLoop] at hout; exact absurd hout (by simp)
  | succ n ih =>
    intro stack out hout
    cases stack with
    | nil =>
      rw [searchLoop] at hout
      obtain rfl := Option.some.inj hout
      intro c hc
      simp at hc
    | cons cur rest =>
      rw [searchLoop] at hout
      by_cases hdest : cur.destination = cs.destination
      · rw [if_pos hdest] at hout
        obtain ⟨out', hout', rfl⟩ := Option.map_eq_some'.mp hout
        intro c hc
        rcases List.mem_cons.mp hc with rfl | hc
        · exact hdest
        · exact ih rest out' hout' c hc
      · rw [if_neg hdest] at hout
        exact ih _ out hout

theorem find_combinations_destination (index : FlightIndex) (cs : SearchConstraints) :
    ∀ c ∈ find_combinations index cs, c.destination = cs.destination := by
  intro c hc
  rw [find_combinations] at hc
  cases hrun : searchLoop index cs (stackMeasure index (initialStack index cs))
      (initialStack index cs) with
  | none => rw [hrun] at hc; simp at hc
  | some out =>
    rw [hrun] at hc
    exact searchLoop_yield_destination index cs _ _ out hrun c hc

/-! Termination of the search loop. Every stack entry satisfies `LenInv`:
its length is at most the number of distinct airports it visits, and it
visits only airports of the index. Branching adds a flight whose
destination is unvisited, so it strictly grows the visited set; entry
length is therefore bounded by the number of distinct airports of the
index, and `stackMeasure` strictly decreases at every loop iteration. -/

def LenInv (index : FlightIndex) (c : FlightCombination) : Prop :=
  c.flights.length ≤ c.visited_airports.toFinset.card ∧
    ∀ a ∈ c.visited_airports, a ∈ indexAirports index

theorem lenInv_single {index : FlightIndex} {f : FlightDetails}
    (hf : f ∈ indexFlights index) : LenInv index (FlightCombination.single f) := by
  constructor
  · rw [FlightCombination.single_flights, FlightCombination.single_visited]
    refine List.length_singleton _ ▸ Finset.card_pos.mpr ⟨f.origin, ?_⟩
    simp
  · intro a ha
    rw [FlightCombination.single_visited] at ha
    rw [indexAirports, List.mem_toFinset, List.mem_flatMap]
    exact ⟨f, hf, ha⟩

theorem lenInv_card_le {index : FlightIndex} {c : FlightCombination}
    (h : LenInv index c) : c.flights.length ≤ (indexAirports index).card := by
  refine le_trans h.1 (Finset.card_le_card ?_)
  intro a ha
  exact h.2 a (List.mem_toFinset.mp ha)

theorem lenInv_step {index : FlightIndex} {cs : SearchConstraints}
    {cur c : FlightCombination} (hcur : LenInv index cur)
    (hc : c ∈ elegible_branches cur index cs) : LenInv index c := by
  obtain ⟨f, hget, hnv, -, -, rfl⟩ := mem_elegible_branches hc
  have hfl : f ∈ indexFlights index := indexGet_subset_indexFlights hget
  constructor
  · rw [FlightCombination.add_flights, FlightCombination.add_visited,
      List.length_append, List.toFinset_append]
    have hins : insert f.destination cur.visited_airports.toFinset ⊆
        cur.visited_airports.toFinset ∪ [f.origin, f.destination].toFinset := by
      intro a ha
      rcases Finset.mem_insert.mp ha with rfl | ha
      · exact Finset.mem_union_right _ (by simp)
      · exact Finset.mem_union_left _ ha
    have hcard : cur.visited_airports.toFinset.card + 1 ≤
        (cur.visited_airports.toFinset ∪ [f.origin, f.destination].toFinset).card := by
      have hnotin : f.destination ∉ cur.visited_airports.toFinset := by
        rw [List.mem_toFinset]; exact hnv
      calc cur.visited_airports.toFinset.card + 1
          = (insert f.destination cur.visited_airports.toFinset).card :=
            (Finset.card_insert_of_not_mem hnotin).symm
        _ ≤ _ := Finset.card_le_card hins
    have := hcur.1
    simp only [List.length_singleton]
    omega
  · intro a ha
    rw [FlightCombination.add_visited, List.mem_append] at ha
    rcases ha with ha | ha
    · exact hcur.2 a ha
    · rw [indexAirports, List.mem_toFinset, List.mem_flatMap]
      exact ⟨f, hfl, ha⟩

theorem elegible_branches_length_le (cur : FlightCombination) (index : FlightIndex)
    (cs : SearchConstraints) :
    (elegible_branches cur index cs).length ≤ (indexFlights index).length := by
  calc (elegible_branches cur index cs).length
      ≤ (branch_combination cur index cs).length := List.length_filter_le _ _
    _ ≤ (indexGet index cur.destination).length := by
        rw [branch_combination, List.length_map]
        exact List.length_filter_le _ _
    _ ≤ (indexFlights index).length := indexGet_length_le index _

theorem elegible_branches_mem_length {cur c : FlightCombination} {index : FlightIndex}
    {cs : SearchConstraints} (h : c ∈ elegible_branches cur index cs) :
    c.flights.length = cur.flights.length + 1 := by
  obtain ⟨f, -, -, -, -, rfl⟩ := mem_elegible_branches h
  simp [FlightCombination.add_flights]

theorem sum_map_const {α : Type} {g : α → Nat} {v : Nat} :
    ∀ l : List α, (∀ x ∈ l, g x = v) → (l.map g).sum = l.length * v := by
  intro l
  induction l with
  | nil => intro _; simp
  | cons a l ih =>
    intro h
    rw [List.map_cons, List.sum_cons, ih (fun x hx => h x (List.mem_cons_of_mem _ hx)),
      h a (List.mem_cons_self _ _), List.length_cons]
    ring

theorem stackMeasure_append (index : FlightIndex) (a b : List FlightCombination) :
    stackMeasure index (a ++ b) = stackMeasure index a + stackMeasure index b := by
  simp [stackMeasure]

theorem stackMeasure_cons (index : FlightIndex) (c : FlightCombination)
    (rest : List FlightCombination) :
    stackMeasure index (c :: rest) = comboWeight index c + stackMeasure index rest := by
  simp [stackMeasure]

theorem stackMeasure_reverse (index : FlightIndex) (l : List FlightCombination) :
    stackMeasure index l.reverse = stackMeasure index l := by
  simp [stackMeasure, List.map_reverse, List.sum_reverse]

theorem comboWeight_pos (index : FlightIndex) (c : FlightCombination) :
    0 < comboWeight index c :=
  pow_pos (Nat.succ_pos _) _

theorem stackMeasure_step {index : FlightIndex} {cs : SearchConstraints}
    {cur : FlightCombination} (rest : List FlightCombination) (hcur : LenInv index cur) :
    stackMeasure index ((elegible_branches cur index cs).reverse ++ rest) <
      stackMeasure index (cur :: rest) := by
  have hl : cur.flights.length ≤ (indexAirports index).card := lenInv_card_le hcur
  rw [stackMeasure_append, stackMeasure_reverse, stackMeasure_cons]
  have hsum : stackMeasure index (elegible_branches cur index cs) =
      (elegible_branches cur index cs).length *
        (((indexFlights index).length + 1) ^
          ((indexAirports index).card - cur.flights.length)) := by
    rw [stackMeasure]
    refine sum_map_const _ ?_
    intro c hc
    rw [comboWeight, elegible_branches_mem_length hc]
    congr 1
    omega
  rw [hsum, comboWeight]
  have hk : (elegible_branches cur index cs).length ≤ (indexFlights index).length :=
    elegible_branches_length_le cur index cs
  have hexp : (indexAirports index).card + 1 - cur.flights.length =
      ((indexAirports index).card - cur.flights.length) + 1 := by omega
  rw [hexp, pow_succ]
  have hw : 0 < ((indexFlights index).length + 1) ^
      ((indexAirports index).card - cur.flights.length) := pow_pos (Nat.succ_pos _) _
  have hklt : (elegible_branches cur index cs).length *
      (((indexFlights index).length + 1) ^
        ((indexAirports index).card - cur.flights.length)) <
      (((indexFlights index).length + 1) ^
        ((indexAirports index).card - cur.flights.length)) *
        ((indexFlights index).length + 1) := by
    calc (elegible_branches cur index cs).length *
        (((indexFlights index).length + 1) ^
          ((indexAirports index).card - cur.flights.length))
        ≤ (indexFlights index).length *
          (((indexFlights index).length + 1) ^
            ((indexAirports index).card - cur.flights.length)) :=
          Nat.mul_le_mul_right _ hk
      _ < (indexFlights index).length *
          (((indexFlights index).length + 1) ^
            ((indexAirports index).card - cur.flights.length)) +
          (((indexFlights index).length + 1) ^
            ((indexAirports index).card - cur.flights.length)) :=
          Nat.lt_add_of_pos_right hw
      _ = ((indexFlights index).length + 1) *
          (((indexFlights index).length + 1) ^
            ((indexAirports index).card - cur.flights.length)) :=
          (Nat.succ_mul _ _).symm
      _ = (((indexFlights index).length + 1) ^
            ((indexAirports index).card - cur.flights.length)) *
            ((indexFlights index).length + 1) := Nat.mul_comm _ _
  exact Nat.add_lt_add_right hklt _

theorem searchLoop_isSome (index : FlightIndex) (cs : SearchConstraints) :
    ∀ (fuel : Nat) (stack : List FlightCombination), (∀ c ∈ stack, LenInv index c) →
      stackMeasure index stack ≤ fuel →
        ∃ out, searchLoop index cs fuel stack = some out := by
  intro fuel
  induction fuel with
  | zero =>
    intro stack hinv hm
    cases stack with
    | nil => exact ⟨[], rfl⟩
    | cons cur rest =>
      exfalso
      have h1 := comboWeight_pos index cur
      rw [stackMeasure_cons] at hm
      omega
  | succ n ih =>
    intro stack hinv hm
    cases stack with
    | nil => exact ⟨[], rfl⟩
    | cons cur rest =>
      by_cases hdest : cur.destination = cs.destination
      · have hrest : stackMeasure index rest ≤ n := by
          have h1 := comboWeight_pos index cur
          rw [stackMeasure_cons] at hm
          omega
        obtain ⟨out, hout⟩ := ih rest (fun c hc => hinv c (List.mem_cons_of_mem _ hc)) hrest
        refine ⟨cur :: out, ?_⟩
        rw [searchLoop, if_pos hdest, hout, Option.map_some']
      · have hlt := @stackMeasure_step index cs cur rest (hinv cur (List.mem_cons_self _ _))
        have hinv' : ∀ c ∈ (elegible_branches cur index cs).reverse ++ rest,
            LenInv index c := by
          intro c hc
          rcases List.mem_append.mp hc with hc | hc
          · exact lenInv_step (hinv cur (List.mem_cons_self _ _)) (List.mem_reverse.mp hc)
          · exact hinv c (List.mem_cons_of_mem _ hc)
        obtain ⟨out, hout⟩ := ih _ hinv' (by omega)
        refine ⟨out, ?_⟩
        rw [searchLoop, if_neg hdest, hout]

theorem initialStack_lenInv (index : FlightIndex) (cs : SearchConstraints) :
    ∀ c ∈ initialStack index cs, LenInv index c := by
  intro c hc
  obtain ⟨f, hget, -, rfl⟩ := mem_initialStack.mp hc
  exact lenInv_single (indexGet_subset_indexFlights hget)

/-! Characterization of `build_flight_index`. -/

theorem indexGet_setdefault_append (index : FlightIndex) (key : String)
    (fl : FlightDetails) (a : String) :
    indexGet (setdefault_append index key fl) a =
      indexGet index a ++ (if key = a then [fl] else []) := by
  induction index with
  | nil =>
    by_cases h : key = a <;> simp [setdefault_append, indexGet, h]
  | cons kv rest ih =>
    obtain ⟨k, fs⟩ := kv
    by_cases hk : k = key
    · subst hk
      by_cases ha : k = a <;> simp [setdefault_append, indexGet, ha]
    · by_cases ha : k = a
      · have hka : ¬(key = a) := fun h => hk (h.trans ha.symm).symm
        have hak : ¬(a = key) := fun h => hk (ha.trans h)
        simp [setdefault_append, indexGet, hk, ha, hka, hak]
      · simp [setdefault_append, indexGet, hk, ha, ih]

theorem indexGet_build_aux (flights : List FlightDetails) (idx : FlightIndex) (a : String) :
    indexGet (flights.foldl (fun i f => setdefault_append i f.origin f) idx) a =
      indexGet idx a ++ flights.filter (fun f => decide (f.origin = a)) := by
  induction flights generalizing idx with
  | nil => simp
  | cons f fs ih =>
    rw [List.foldl_cons, ih, indexGet_setdefault_append, List.filter_cons,
      List.append_assoc]
    by_cases h : f.origin = a
    · simp [h]
    · simp [h]

theorem indexGet_build (flights : List FlightDetails) (a : String) :
    indexGet (build_flight_index flights) a =
      flights.filter (fun f => decide (f.origin = a)) := by
  rw [build_flight_index, indexGet_build_aux, indexGet, List.nil_append]

/-! The loop body never reads `departure_date`: only the seed filter does. -/

/-- Same constraints with the departure-date requirement removed. -/
def clearDate (cs : SearchConstraints) : SearchConstraints :=
  { cs with departure_date := none }

theorem clearDate_destination (cs : SearchConstraints) :
    (clearDate cs).destination = cs.destination := rfl

theorem elegible_branches_clearDate (c : FlightCombination) (index : FlightIndex)
    (cs : SearchConstraints) :
    elegible_branches c index (clearDate cs) = elegible_branches c index cs := rfl

theorem searchLoop_clearDate (index : FlightIndex) (cs : SearchConstraints) :
    ∀ (fuel : Nat) (stack : List FlightCombination),
      searchLoop index (clearDate cs) fuel stack = searchLoop index cs fuel stack := by
  intro fuel
  induction fuel with
  | zero => intro stack; cases stack <;> rfl
  | succ n ih =>
    intro stack
    cases stack with
    | nil => rfl
    | cons cur rest =>
      rw [searchLoop, searchLoop, clearDate_destination, elegible_branches_clearDate]
      by_cases hdest : cur.destination = cs.destination
      · rw [if_pos hdest, if_pos hdest, ih]
      · rw [if_neg hdest, if_neg hdest, ih]

/-! Concrete instances used by counterexamples and witnesses. -/

def exF1 : FlightDetails := ⟨"F1", "A", "B", 0, 100, 100, 0, 0⟩

def exIdx1 : FlightIndex := [("A", [exF1])]

def exCs1 : SearchConstraints := ⟨"A", "B", 0, 60, 360, some 50, none, none⟩

def exComb1 : FlightCombination := FlightCombination.single exF1

def exF2a : FlightDetails := ⟨"G1", "A", "B", 0, 100, 10, 0, 2⟩

def exF2b : FlightDetails := ⟨"G2", "B", "C", 200, 300, 10, 0, 2⟩

def exIdx2 : FlightIndex := [("A", [exF2a]), ("B", [exF2b])]

def exCs2 : SearchConstraints := ⟨"A", "C", 0, 60, 360, none, none, none⟩

def exComb2 : FlightCombination := (FlightCombination.single exF2a).add exF2b

/-- Airports of a combination in path order: each leg's origin followed by
the final destination. -/
def airportPath (c : FlightCombination) : List String :=
  c.flights.map FlightDetails.origin ++ [c.destination]

/-- C1 is refuted on the code: `find_combinations` yields single-leg seed
combinations that reach the destination directly without ever checking
`is_combination_elegible`, so a direct flight over the price ceiling is
yielded even though it is not combination-eligible. Here the only yielded
combination is the seed `exComb1`, whose price 100 exceeds the ceiling 50. -/
theorem claim_C1_counterexample :
    ¬ (∀ c ∈ find_combinations exIdx1 exCs1, is_combination_elegible c exCs1 = true) := by
  intro h
  have h1 : exComb1 ∈ find_combinations exIdx1 exCs1 := by decide
  have h2 := h exComb1 h1
  have hprice : ¬(total_price exComb1.flights exCs1.required_bags ≤ (50 : ℚ)) := by
    have htp : total_price exComb1.flights exCs1.required_bags = 100 := by
      simp [total_price, FlightDetails.total_price, exComb1, exF1,
        FlightCombination.single, exCs1]
    rw [htp]
    norm_num
  rw [is_combination_elegible, Bool.and_eq_true] at h2
  have h4 : is_within_price_range exComb1.flights exCs1.max_price exCs1.required_bags =
      decide (total_price exComb1.flights exCs1.required_bags ≤ (50 : ℚ)) := rfl
  rw [h4] at h2
  exact hprice (of_decide_eq_true h2.2)

/-- C1 (amended): every combination yielded by `find_combinations` that has
more than one flight — i.e. was pushed by the branching step rather than
seeded — satisfies `is_combination_elegible`; single-leg combinations are
yielded without that check and may violate it. -/
theorem claim_C1 (index : FlightIndex) (cs : SearchConstraints) :
    ∀ c ∈ find_combinations index cs, 1 < c.flights.length →
      is_combination_elegible c cs = true := by
  refine find_combinations_invariant index cs _ ?_ ?_
  · intro c hc hlen
    obtain ⟨f, -, -, rfl⟩ := mem_initialStack.mp hc
    rw [FlightCombination.single_flights] at hlen
    exact absurd hlen (by simp)
  · intro c _ c' hc' _
    obtain ⟨f, -, -, -, helig, -⟩ := mem_elegible_branches hc'
    exact helig

/-- Witness for the amended C1 at a concrete two-leg combination. -/
theorem claim_C1_witness :
    1 < exComb2.flights.length ∧ is_combination_elegible exComb2 exCs2 = true :=
  ⟨by decide, claim_C1 exIdx2 exCs2 exComb2 (by decide) (by decide)⟩

/-- C2: every trip produced by `find_trips` whose returning combination is
present has its return's first departure strictly later than the departing
combination's last arrival; equal instants or overlap never occur. -/
theorem claim_C2 (index : FlightIndex) (tc : TripConstraints) (t : Trip)
    (ht : t ∈ find_trips index tc) (r : FlightCombination) (hr : t.returning = some r) :
    t.departing.last.arrival < r.first.departure := by
  obtain ⟨dcs, ret⟩ := tc
  cases ret with
  | none =>
    simp only [find_trips] at ht
    obtain ⟨hmem, -⟩ := List.mem_filter.mp ht
    obtain ⟨dep, -, rfl⟩ := List.mem_map.mp hmem
    simp at hr
  | some rcs =>
    simp only [find_trips] at ht
    obtain ⟨hmem, -⟩ := List.mem_filter.mp ht
    obtain ⟨p, hp, rfl⟩ := List.mem_map.mp hmem
    obtain ⟨-, hcond⟩ := List.mem_filter.mp hp
    rw [decide_eq_true_eq] at hcond
    have hpr : p.2 = r := by simpa using hr
    rw [← hpr]
    exact hcond

def exRtF1 : FlightDetails := ⟨"R1", "A", "B", 0, 100, 10, 0, 2⟩

def exRtF2 : FlightDetails := ⟨"R2", "B", "A", 200, 300, 10, 0, 2⟩

def exRtIdx : FlightIndex := [("A", [exRtF1]), ("B", [exRtF2])]

def exRtTc : TripConstraints :=
  ⟨⟨"A", "B", 0, 60, 360, none, none, none⟩, some ⟨"B", "A", 0, 60, 360, none, none, none⟩⟩

def exRtTrip : Trip :=
  ⟨FlightCombination.single exRtF1, some (FlightCombination.single exRtF2), 0⟩

/-- Witness for C2 on a concrete round trip. -/
theorem claim_C2_witness :
    exRtTrip.departing.last.arrival < (FlightCombination.single exRtF2).first.departure :=
  claim_C2 exRtIdx exRtTc exRtTrip (by decide) (FlightCombination.single exRtF2) (by decide)

/-- C3: in every combination yielded by `find_combinations`, each adjacent
pair of legs has a layover within the inclusive bounds `min_layover` and
`max_layover`. -/
theorem claim_C3 (index : FlightIndex) (cs : SearchConstraints) :
    ∀ c ∈ find_combinations index cs,
      List.Chain' (fun inbound outbound =>
        cs.min_layover ≤ outbound.departure - inbound.arrival ∧
          outbound.departure - inbound.arrival ≤ cs.max_layover) c.flights := by
  refine find_combinations_invariant index cs _ ?_ ?_
  · intro c hc
    obtain ⟨f, -, -, rfl⟩ := mem_initialStack.mp hc
    rw [FlightCombination.single_flights]
    exact List.chain'_singleton f
  · intro c hc c' hc'
    obtain ⟨f, -, -, hlay, -, rfl⟩ := mem_elegible_branches hc'
    rw [FlightCombination.add_flights, List.chain'_append]
    refine ⟨hc, List.chain'_singleton f, ?_⟩
    intro x hx y hy
    rw [List.getLast?_eq_getLast _ c.nonempty, Option.mem_def] at hx
    obtain rfl := Option.some.inj hx.symm
    rw [List.head?_cons, Option.mem_def] at hy
    obtain rfl := Option.some.inj hy.symm
    rw [is_valid_layover, Bool.and_eq_true, decide_eq_true_eq, decide_eq_true_eq] at hlay
    exact hlay

/-- Witness for C3 at a concrete two-leg combination. -/
theorem claim_C3_witness :
    List.Chain' (fun inbound outbound =>
      exCs2.min_layover ≤ outbound.departure - inbound.arrival ∧
        outbound.departure - inbound.arrival ≤ exCs2.max_layover) exComb2.flights :=
  claim_C3 exIdx2 exCs2 exComb2 (by decide)

/-- C4: over a well-formed index (each bucket holds flights departing its
key) whose flights never have equal origin and destination, every yielded
combination is a connected path whose airports are pairwise distinct. -/
theorem claim_C4 (index : FlightIndex) (cs : SearchConstraints)
    (hwf : ∀ kv ∈ index, ∀ f ∈ kv.2, f.origin = kv.1)
    (hnd : ∀ kv ∈ index, ∀ f ∈ kv.2, f.origin ≠ f.destination) :
    ∀ c ∈ find_combinations index cs,
      List.Chain' (fun a b => a.destination = b.origin) c.flights ∧
        (airportPath c).Nodup := by
  have hwfg : ∀ key f, f ∈ indexGet index key → f.origin = key := by
    intro key f hf
    obtain ⟨kv, hkv, hk1, hfkv⟩ := indexGet_mem_exists hf
    exact (hwf kv hkv f hfkv).trans hk1
  have hndg : ∀ key f, f ∈ indexGet index key → f.origin ≠ f.destination := by
    intro key f hf
    obtain ⟨kv, hkv, -, hfkv⟩ := indexGet_mem_exists hf
    exact hnd kv hkv f hfkv
  have hmain := find_combinations_invariant index cs
    (fun c => List.Chain' (fun a b => a.destination = b.origin) c.flights ∧
      (airportPath c).Nodup ∧ ∀ a ∈ airportPath c, a ∈ c.visited_airports) ?_ ?_
  · intro c hc
    exact ⟨(hmain c hc).1, (hmain c hc).2.1⟩
  · intro c hc
    obtain ⟨f, hget, -, rfl⟩ := mem_initialStack.mp hc
    have hpath : airportPath (FlightCombination.single f) = [f.origin, f.destination] := by
      rw [airportPath, FlightCombination.single_flights, FlightCombination.single_destination]
      rfl
    refine ⟨by rw [FlightCombination.single_flights]; exact List.chain'_singleton f, ?_, ?_⟩
    · rw [hpath]
      simp [hndg cs.origin f hget]
    · intro a ha
      rw [hpath] at ha
      rw [FlightCombination.single_visited]
      exact ha
  · rintro c ⟨hchain, hnodup, hsub⟩ c' hc'
    obtain ⟨f, hget, hnv, -, -, rfl⟩ := mem_elegible_branches hc'
    have horig : f.origin = c.destination := hwfg c.destination f hget
    have hpath : airportPath (c.add f) = airportPath c ++ [f.destination] := by
      rw [airportPath, airportPath, FlightCombination.add_flights,
        FlightCombination.add_destination, List.map_append]
      simp [horig, FlightCombination.destination]
    have hfd : f.destination ∉ airportPath c := fun hmem => hnv (hsub _ hmem)
    refine ⟨?_, ?_, ?_⟩
    · rw [FlightCombination.add_flights, List.chain'_append]
      refine ⟨hchain, List.chain'_singleton f, ?_⟩
      intro x hx y hy
      rw [List.getLast?_eq_getLast _ c.nonempty, Option.mem_def] at hx
      obtain rfl := Option.some.inj hx.symm
      rw [List.head?_cons, Option.mem_def] at hy
      obtain rfl := Option.some.inj hy.symm
      exact horig.symm
    · rw [hpath, List.nodup_append]
      exact ⟨hnodup, List.nodup_singleton _, by
        intro a ha ha'
        rw [List.mem_singleton] at ha'
        exact hfd (ha' ▸ ha)⟩
    · intro a ha
      rw [hpath, List.mem_append] at ha
      rw [FlightCombination.add_visited, List.mem_append]
      rcases ha with ha | ha
      · exact Or.inl (hsub a ha)
      · rw [List.mem_singleton] at ha
        exact Or.inr (by simp [ha])

/-- Witness for C4 at a concrete two-leg combination over a built-style
index. -/
theorem claim_C4_witness :
    List.Chain' (fun a b => a.destination = b.origin) exComb2.flights ∧
      (airportPath exComb2).Nodup :=
  claim_C4 exIdx2 exCs2 (by decide) (by decide) exComb2 (by decide)

/-- C5: for every index and constraints the search loop, run with the fuel
computed from the stack measure, completes (never exhausts its fuel) and
returns exactly the finite list `find_combinations` exposes: the airport
revisit check bounds every stack entry's length by the number of distinct
airports of the index, so the measure strictly decreases and the stack
empties after finitely many iterations. -/
theorem claim_C5 (index : FlightIndex) (cs : SearchConstraints) :
    searchLoop index cs (stackMeasure index (initialStack index cs))
      (initialStack index cs) = some (find_combinations index cs) := by
  obtain ⟨out, hout⟩ := searchLoop_isSome index cs
    (stackMeasure index (initialStack index cs)) (initialStack index cs)
    (initialStack_lenInv index cs) le_rfl
  rw [hout, find_combinations, hout]
  rfl

/-- C6: the whole-trip filter `is_trip_elegible` reads only the departing
`SearchConstraints` — its price ceiling is `departing.max_price`, its bag
count `departing.required_bags` — so changing the returning constraints
(including any `max_price` set only there) never changes its verdict. -/
theorem claim_C6 (t : Trip) (dep : SearchConstraints) (r1 r2 : Option SearchConstraints) :
    is_trip_elegible t ⟨dep, r1⟩ = is_trip_elegible t ⟨dep, r2⟩ ∧
      is_trip_elegible t ⟨dep, r1⟩ =
        is_within_price_range t.allFlights dep.max_price dep.required_bags :=
  ⟨rfl, rfl⟩

/-- C7: constructing a combination from zero flights signals the
construction error, and every combination reachable through
`find_combinations`, `branch_combination` or `search_trips` carries at
least one flight. -/
theorem claim_C7 :
    FlightCombination.ofFlights [] =
        Except.error "Flight combination must contain at least 1 flight" ∧
      (∀ (index : FlightIndex) (cs : SearchConstraints) (c : FlightCombination),
        c ∈ find_combinations index cs → c.flights ≠ []) ∧
      (∀ (cmb : FlightCombination) (index : FlightIndex) (cs : SearchConstraints)
        (c : FlightCombination), c ∈ branch_combination cmb index cs → c.flights ≠ []) ∧
      (∀ (flights : List FlightDetails) (tc : TripConstraints) (t : Trip),
        t ∈ search_trips flights tc →
          t.departing.flights ≠ [] ∧ ∀ r, t.returning = some r → r.flights ≠ []) := by
  refine ⟨rfl, ?_, ?_, ?_⟩
  · intro index cs c _
    exact c.nonempty
  · intro cmb index cs c _
    exact c.nonempty
  · intro flights tc t _
    exact ⟨t.departing.nonempty, fun r _ => r.nonempty⟩

/-- Witness for C7 at a concrete yielded combination. -/
theorem claim_C7_witness : exComb1.flights ≠ [] :=
  claim_C7.2.1 exIdx1 exCs1 exComb1 (by decide)

def exIdxFlights : List FlightDetails :=
  [⟨"I1", "A", "B", 0, 100, 10, 0, 2⟩, ⟨"I2", "A", "C", 0, 100, 10, 0, 2⟩,
    ⟨"I3", "B", "C", 0, 100, 10, 0, 2⟩]

/-- C8: the built index maps every airport to exactly the input flights
departing it, in input order, and looking up an airport no flight departs
yields the empty list rather than an error. -/
theorem claim_C8 (flights : List FlightDetails) (a : String) :
    indexGet (build_flight_index flights) a =
        flights.filter (fun f => decide (f.origin = a)) ∧
      ((∀ f ∈ flights, f.origin ≠ a) → indexGet (build_flight_index flights) a = []) := by
  refine ⟨indexGet_build flights a, ?_⟩
  intro h
  rw [indexGet_build, List.filter_eq_nil_iff]
  intro f hf
  simp [h f hf]

/-- Witness for C8: an airport absent from the index yields the empty
bucket. -/
theorem claim_C8_witness : indexGet (build_flight_index exIdxFlights) "Z" = [] :=
  (claim_C8 exIdxFlights "Z").2 (by decide)

def exDtF1 : FlightDetails := ⟨"D1", "A", "B", 60, 120, 10, 0, 2⟩

def exDtF2 : FlightDetails := ⟨"D2", "B", "C", 1500, 1600, 10, 0, 2⟩

def exDtIdx : FlightIndex := [("A", [exDtF1]), ("B", [exDtF2])]

def exDtCs : SearchConstraints := ⟨"A", "C", 0, 60, 2000, none, none, some 0⟩

def exDtComb : FlightCombination := (FlightCombination.single exDtF1).add exDtF2

/-- C9: the departure-date constraint restricts only the seed flights: the
loop behaves identically with the date requirement erased, `find_combinations`
equals the date-free loop run on the date-filtered seeds, and a concrete
yielded two-leg combination has its second leg departing on a different date
than the requested one even though `departure_date` is set. -/
theorem claim_C9 :
    (∀ (index : FlightIndex) (cs : SearchConstraints) (fuel : Nat)
        (stack : List FlightCombination),
      searchLoop index (clearDate cs) fuel stack = searchLoop index cs fuel stack) ∧
      (∀ (index : FlightIndex) (cs : SearchConstraints),
        find_combinations index cs =
          (searchLoop index (clearDate cs) (stackMeasure index (initialStack index cs))
            ((((indexGet index cs.origin).filter
                (fun f => departs_on_requested_date f cs)).map
              FlightCombination.single).reverse)).getD []) ∧
      find_combinations exDtIdx exDtCs = [exDtComb] ∧
      exDtCs.departure_date = some 0 ∧ dateOf exDtComb.last.departure ≠ 0 := by
  refine ⟨searchLoop_clearDate, ?_, by decide, rfl, by decide⟩
  intro index cs
  rw [find_combinations, searchLoop_clearDate]
  rfl

/-- C10: with an index built from flights that never have equal origin and
destination, constraints whose origin equals their destination yield no
combinations: the origin sits in every stack entry's visited set, so no
entry can ever end at the target. -/
theorem claim_C10 (flights : List FlightDetails) (cs : SearchConstraints)
    (hnd : ∀ f ∈ flights, f.origin ≠ f.destination) (heq : cs.origin = cs.destination) :
    find_combinations (build_flight_index flights) cs = [] := by
  have hinit : ∀ c ∈ initialStack (build_flight_index flights) cs,
      cs.origin ∈ c.visited_airports ∧ c.destination ≠ cs.destination := by
    intro c hc
    obtain ⟨f, hget, -, rfl⟩ := mem_initialStack.mp hc
    rw [indexGet_build] at hget
    obtain ⟨hfm, hforig⟩ := List.mem_filter.mp hget
    rw [decide_eq_true_eq] at hforig
    constructor
    · rw [FlightCombination.single_visited, ← hforig]
      simp
    · rw [FlightCombination.single_destination, ← heq, ← hforig]
      exact (hnd f hfm).symm
  have hstep : ∀ c, (cs.origin ∈ c.visited_airports ∧ c.destination ≠ cs.destination) →
      ∀ c' ∈ elegible_branches c (build_flight_index flights) cs,
        cs.origin ∈ c'.visited_airports ∧ c'.destination ≠ cs.destination := by
    rintro c ⟨hvis, -⟩ c' hc'
    obtain ⟨f, -, hnv, -, -, rfl⟩ := mem_elegible_branches hc'
    constructor
    · rw [FlightCombination.add_visited]
      exact List.mem_append_left _ hvis
    · rw [FlightCombination.add_destination]
      intro h
      exact hnv (by rw [h, ← heq]; exact hvis)
  rw [List.eq_nil_iff_forall_not_mem]
  intro c hc
  have hdest := find_combinations_destination (build_flight_index flights) cs c hc
  have hP := find_combinations_invariant (build_flight_index flights) cs
    (fun c => cs.origin ∈ c.visited_airports ∧ c.destination ≠ cs.destination)
    hinit hstep c hc
  exact hP.2 hdest

def exLoopFlights : List FlightDetails :=
  [⟨"L1", "A", "B", 0, 100, 10, 0, 2⟩, ⟨"L2", "B", "A", 200, 300, 10, 0, 2⟩]

def exLoopCs : SearchConstraints := ⟨"A", "A", 0, 60, 360, none, none, none⟩

/-- Witness for C10: searching from an airport back to itself yields
nothing even though a geometric cycle exists. -/
theorem claim_C10_witness :
    find_combinations (build_flight_index exLoopFlights) exLoopCs = [] :=
  claim_C10 exLoopFlights exLoopCs (by decide) (by decide)
